import Mathlib

/-!
Verification of the crane-unloading solvers in cranes_algs.hpp.

The repository ships only cranes_algs.hpp; the grid and path value types it
consumes live in crane_types.hpp, which is not part of the sources.  Those two
types are therefore modelled from the specification (sections 4.1 and 4.2),
while the two solver functions are translated directly from cranes_algs.hpp.
-/

namespace Cranes

/-- Modelled from the spec: cell classification of crane_types.hpp
(EMPTY, CRANE, BUILDING). -/
inductive Cell where
  | empty : Cell
  | crane : Cell
  | building : Cell
deriving DecidableEq

/-- Modelled from the spec: the two step directions of crane_types.hpp
(STEP_DIRECTION_EAST, STEP_DIRECTION_SOUTH). -/
inductive Direction where
  | east : Direction
  | south : Direction
deriving DecidableEq

/-- Modelled from the spec: the grid of crane_types.hpp.  Immutable
dimensions plus a cell classification per coordinate pair (section 4.1). -/
structure Grid where
  rows : Nat
  columns : Nat
  get : Nat → Nat → Cell

/-- Modelled from the spec: the path value object of crane_types.hpp
(section 4.2): a move sequence bound to a grid, with derived current row,
current column and cumulative crane count. -/
structure Path where
  g : Grid
  moves : List Direction
  row : Nat
  col : Nat
  cranes : Nat

/-- Destination coordinates of a step from the end of a path:
EAST is column+1, SOUTH is row+1. -/
def stepTarget (p : Path) (d : Direction) : Nat × Nat :=
  match d with
  | Direction.east => (p.row, p.col + 1)
  | Direction.south => (p.row + 1, p.col)

/-- Modelled from the spec: path construction of crane_types.hpp — starts at
(0,0) with zero moves; crane count 1 if cell (0,0) holds a crane, else 0. -/
def Path.start (g : Grid) : Path :=
  ⟨g, [], 0, 0, if g.get 0 0 = Cell.crane then 1 else 0⟩

/-- Modelled from the spec: is_step_valid of crane_types.hpp — the step stays
within grid bounds and lands on a non-BUILDING cell. -/
def Path.is_step_valid (p : Path) (d : Direction) : Bool :=
  decide ((stepTarget p d).1 < p.g.rows) &&
  decide ((stepTarget p d).2 < p.g.columns) &&
  decide (p.g.get (stepTarget p d).1 (stepTarget p d).2 ≠ Cell.building)

/-- Modelled from the spec: add_step of crane_types.hpp — appends the move,
updates the position, and increments the crane count when the destination
cell holds a crane. -/
def Path.add_step (p : Path) (d : Direction) : Path :=
  { p with
    moves := p.moves ++ [d],
    row := (stepTarget p d).1,
    col := (stepTarget p d).2,
    cranes := p.cranes +
      (if p.g.get (stepTarget p d).1 (stepTarget p d).2 = Cell.crane then 1 else 0) }

/-- Modelled from the spec: total_cranes of crane_types.hpp. -/
def Path.total_cranes (p : Path) : Nat := p.cranes

/-! ## Exhaustive solver (cranes_algs.hpp lines 27-70) -/

/-- Direction encoded by bit k of the pattern: bit 1 is EAST, bit 0 is SOUTH
(cranes_algs.hpp lines 47-49). -/
def bitDir (bits k : Nat) : Direction :=
  if (bits >>> k) % 2 = 1 then Direction.east else Direction.south

/-- The move sequence a bit pattern denotes: bits 0..steps-1 in order,
matching the inner loop index k of cranes_algs.hpp line 45. -/
def bitsToMoves (bits steps : Nat) : List Direction :=
  (List.range steps).map (bitDir bits)

/-- One iteration of the replay loop body (cranes_algs.hpp lines 49-60): if
the indicated direction is valid it is appended, otherwise the valid flag is
cleared and the path is left unchanged.  The loop does not break. -/
def replayStep (st : Path × Bool) (d : Direction) : Path × Bool :=
  if st.1.is_step_valid d then (st.1.add_step d, st.2) else (st.1, false)

/-- The candidate built for a bit pattern, with its validity flag
(cranes_algs.hpp lines 42-61: fresh path, valid = true, then the k-loop). -/
def replayBits (g : Grid) (steps bits : Nat) : Path × Bool :=
  (bitsToMoves bits steps).foldl replayStep (Path.start g, true)

/-- The bits-loop of cranes_algs.hpp lines 41-66: fold the candidate of every
pattern in the list into the incumbent best, replacing it exactly when the
candidate is valid and its crane count strictly exceeds the incumbent's. -/
def pickBits (g : Grid) (steps : Nat) (l : List Nat) (best : Path) : Path :=
  l.foldl
    (fun best bits =>
      if (replayBits g steps bits).2 &&
          decide (best.total_cranes < (replayBits g steps bits).1.total_cranes) then
        (replayBits g steps bits).1
      else best)
    best

/-- crane_unloading_exhaustive (cranes_algs.hpp lines 27-70): for each length
steps = 1..max_steps, try every bit pattern 0..2^steps-1, starting from the
zero-length path at the start cell.  The loop bound pow(2,steps)-1 is read in
exact arithmetic. -/
def crane_unloading_exhaustive (g : Grid) : Path :=
  (List.range' 1 (g.rows + g.columns - 2)).foldl
    (fun best steps => pickBits g steps (List.range (2 ^ steps)) best)
    (Path.start g)

/-! ## Dynamic-programming solver (cranes_algs.hpp lines 76-150) -/

/-- The copy-then-extend of cranes_algs.hpp lines 97-111: the predecessor
entry is copied, and extended by one step only when that step is valid. -/
def extendOpt (d : Direction) (e : Option Path) : Option Path :=
  match e with
  | some p => some (if p.is_step_valid d then p.add_step d else p)
  | none => none

/-- The three assignment branches of cranes_algs.hpp lines 115-130: both
candidates present picks the strictly larger crane count and from_left on a
tie; one candidate present picks it; neither present leaves the entry at its
prior value. -/
def combineCands (fa fl pre : Option Path) : Option Path :=
  match fa, fl with
  | some a, some l =>
      if a.total_cranes > l.total_cranes then some a else some l
  | some a, none => some a
  | none, some l => some l
  | none, none => pre

/-- The final value of table cell A[r][c] in crane_unloading_dyn_prog
(cranes_algs.hpp lines 84-133).  The row-major fill writes each cell at most
once, in its own iteration, and reads only cells already final (A[r-1][c] and
A[r][c-1]), so the table is the fixpoint of this recurrence: A[0][0] is
preset to the start path (line 86) and kept unless the loop body overwrites
it; a BUILDING cell is skipped by the guard on line 91 and keeps its preset
value. -/
def dpEntry (g : Grid) : Nat → Nat → Option Path
  | r, c =>
    if g.get r c = Cell.building then
      (if r == 0 && c == 0 then some (Path.start g) else none)
    else
      combineCands
        (if h : 0 < r then extendOpt Direction.south (dpEntry g (r - 1) c) else none)
        (if h : 0 < c then extendOpt Direction.east (dpEntry g r (c - 1)) else none)
        (if r == 0 && c == 0 then some (Path.start g) else none)
termination_by r c => (r, c)
decreasing_by
  · exact Prod.Lex.left _ _ (Nat.sub_lt h Nat.one_pos)
  · exact Prod.Lex.right _ (Nat.sub_lt h Nat.one_pos)

/-- The from_above candidate of cranes_algs.hpp lines 94-103 at cell (r,c). -/
def fromAboveCand (g : Grid) (r c : Nat) : Option Path :=
  if 0 < r then extendOpt Direction.south (dpEntry g (r - 1) c) else none

/-- The from_left candidate of cranes_algs.hpp lines 95-111 at cell (r,c). -/
def fromLeftCand (g : Grid) (r c : Nat) : Option Path :=
  if 0 < c then extendOpt Direction.east (dpEntry g r (c - 1)) else none

/-- All table coordinates in row-major order, the traversal order of both the
fill loop (lines 89-90) and the final scan (lines 138-139). -/
def allCells (g : Grid) : List (Nat × Nat) :=
  (List.range g.rows).flatMap (fun r => (List.range g.columns).map (fun c => (r, c)))

/-- The final scan of cranes_algs.hpp lines 135-144: best starts at A[0][0]
and is replaced exactly when a present entry has a strictly greater crane
count. -/
def scanBest (g : Grid) (l : List (Nat × Nat)) (best : Option Path) : Option Path :=
  l.foldl
    (fun best rc =>
      match dpEntry g rc.1 rc.2, best with
      | some p, some b => if p.total_cranes > b.total_cranes then some p else best
      | _, _ => best)
    best

/-- crane_unloading_dyn_prog (cranes_algs.hpp lines 76-150).  The final
dereference **best is asserted non-empty in the source; the impossible none
branch returns the start path. -/
def crane_unloading_dyn_prog (g : Grid) : Path :=
  match scanBest g (allCells g) (dpEntry g 0 0) with
  | some b => b
  | none => Path.start g

/-! ## Move sequences

A path is determined by replaying its move sequence from the start cell;
these definitions name that replay and the step-by-step validity of a move
sequence, the vocabulary in which both solvers are specified. -/

/-- Replay a move sequence from a given path by repeated add_step. -/
def followFrom (p : Path) (ms : List Direction) : Path :=
  ms.foldl Path.add_step p

/-- Replay a move sequence from the start path of a grid. -/
def followAll (g : Grid) (ms : List Direction) : Path :=
  followFrom (Path.start g) ms

/-- Every step of the move sequence is valid at the point it is taken. -/
def validFrom (p : Path) : List Direction → Bool
  | [] => true
  | d :: ms => p.is_step_valid d && validFrom (p.add_step d) ms

/-- The move sequence is valid when replayed from the start cell. -/
def validMoves (g : Grid) (ms : List Direction) : Bool :=
  validFrom (Path.start g) ms

/-- Replay that skips invalid steps and appends valid ones, the behaviour of
the exhaustive solver's inner loop once the valid flag is down. -/
def skipReplay (p : Path) : List Direction → Path
  | [] => p
  | d :: ms => if p.is_step_valid d then skipReplay (p.add_step d) ms else skipReplay p ms

/-- Destination of a move taken from a coordinate pair. -/
def stepPos (q : Nat × Nat) (d : Direction) : Nat × Nat :=
  match d with
  | Direction.east => (q.1, q.2 + 1)
  | Direction.south => (q.1 + 1, q.2)

/-- The coordinates visited by a move sequence from a given cell, the start
cell included. -/
def posList (q : Nat × Nat) : List Direction → List (Nat × Nat)
  | [] => [q]
  | d :: ms => q :: posList (stepPos q d) ms

/-- The bit pattern that denotes a move sequence (EAST at position k sets
bit k). -/
def encodeMoves : List Direction → Nat
  | [] => 0
  | d :: ms => (if d = Direction.east then 1 else 0) + 2 * encodeMoves ms

/-- A path is optimal for a grid when some valid move sequence realises its
crane count and no valid move sequence beats it. -/
def IsOptimal (g : Grid) (p : Path) : Prop :=
  (∃ ms, validMoves g ms = true ∧ followAll g ms = p) ∧
  ∀ ms, validMoves g ms = true → (followAll g ms).total_cranes ≤ p.total_cranes

/-! ## Basic path lemmas -/

lemma add_step_g (p : Path) (d : Direction) : (p.add_step d).g = p.g := rfl

lemma add_step_moves (p : Path) (d : Direction) :
    (p.add_step d).moves = p.moves ++ [d] := rfl

lemma add_step_rowcol (p : Path) (d : Direction) :
    (p.add_step d).row = (stepTarget p d).1 ∧ (p.add_step d).col = (stepTarget p d).2 :=
  ⟨rfl, rfl⟩

lemma add_step_sum (p : Path) (d : Direction) :
    (p.add_step d).row + (p.add_step d).col = p.row + p.col + 1 := by
  cases d <;> simp [Path.add_step, stepTarget] <;> omega

lemma followFrom_nil (p : Path) : followFrom p [] = p := rfl

lemma followFrom_cons (p : Path) (d : Direction) (ms : List Direction) :
    followFrom p (d :: ms) = followFrom (p.add_step d) ms := rfl

lemma followFrom_append_single (p : Path) (ms : List Direction) (d : Direction) :
    followFrom p (ms ++ [d]) = (followFrom p ms).add_step d := by
  simp [followFrom, List.foldl_append]

lemma followFrom_g (p : Path) (ms : List Direction) : (followFrom p ms).g = p.g := by
  induction ms generalizing p with
  | nil => rfl
  | cons d ms ih => rw [followFrom_cons, ih, add_step_g]

lemma followAll_g (g : Grid) (ms : List Direction) : (followAll g ms).g = g :=
  followFrom_g _ _

lemma followFrom_moves (p : Path) (ms : List Direction) :
    (followFrom p ms).moves = p.moves ++ ms := by
  induction ms generalizing p with
  | nil => simp [followFrom_nil]
  | cons d ms ih => rw [followFrom_cons, ih, add_step_moves]; simp

lemma followAll_moves (g : Grid) (ms : List Direction) :
    (followAll g ms).moves = ms := by
  simp [followAll, followFrom_moves, Path.start]

lemma followFrom_sum (p : Path) (ms : List Direction) :
    (followFrom p ms).row + (followFrom p ms).col = p.row + p.col + ms.length := by
  induction ms generalizing p with
  | nil => simp [followFrom_nil]
  | cons d ms ih =>
      rw [followFrom_cons, ih, add_step_sum]
      simp; omega

lemma validFrom_nil (p : Path) : validFrom p [] = true := rfl

lemma validFrom_cons (p : Path) (d : Direction) (ms : List Direction) :
    validFrom p (d :: ms) = (p.is_step_valid d && validFrom (p.add_step d) ms) := rfl

lemma validFrom_append_single (p : Path) (ms : List Direction) (d : Direction) :
    validFrom p (ms ++ [d]) = (validFrom p ms && (followFrom p ms).is_step_valid d) := by
  induction ms generalizing p with
  | nil => simp [validFrom, followFrom_nil]
  | cons e ms ih =>
      rw [List.cons_append, validFrom_cons, ih, validFrom_cons, followFrom_cons]
      cases p.is_step_valid e <;> simp

/-- A valid step from an in-bounds path lands in bounds, and the replayed
path stays in bounds. -/
lemma is_step_valid_target (p : Path) (d : Direction) (h : p.is_step_valid d = true) :
    (stepTarget p d).1 < p.g.rows ∧ (stepTarget p d).2 < p.g.columns ∧
      p.g.get (stepTarget p d).1 (stepTarget p d).2 ≠ Cell.building := by
  simp [Path.is_step_valid] at h
  exact ⟨h.1.1, h.1.2, h.2⟩

lemma validFrom_bounds (p : Path) (ms : List Direction)
    (hr : p.row < p.g.rows) (hc : p.col < p.g.columns)
    (hv : validFrom p ms = true) :
    (followFrom p ms).row < p.g.rows ∧ (followFrom p ms).col < p.g.columns := by
  induction ms generalizing p with
  | nil => exact ⟨hr, hc⟩
  | cons d ms ih =>
      rw [validFrom_cons, Bool.and_eq_true] at hv
      have ht := is_step_valid_target p d hv.1
      rw [followFrom_cons]
      have := ih (p.add_step d) (by rw [add_step_g]; exact ht.1) (by rw [add_step_g]; exact ht.2.1) hv.2
      rwa [add_step_g] at this

/-- The length of a valid move sequence is bounded by the grid diagonal. -/
lemma validMoves_length (g : Grid) (ms : List Direction)
    (hr : 0 < g.rows) (hc : 0 < g.columns)
    (hv : validMoves g ms = true) :
    ms.length ≤ g.rows + g.columns - 2 := by
  have hb := validFrom_bounds (Path.start g) ms hr hc hv
  have hs := followFrom_sum (Path.start g) ms
  have h0 : (Path.start g).row = 0 ∧ (Path.start g).col = 0 := ⟨rfl, rfl⟩
  have hgs : (Path.start g).g = g := rfl
  rw [hgs] at hb
  omega

/-! ## Replay semantics of the exhaustive inner loop -/

lemma replayStep_fst_skip (ms : List Direction) (p : Path) (b : Bool) :
    (ms.foldl replayStep (p, b)).1 = skipReplay p ms := by
  induction ms generalizing p b with
  | nil => rfl
  | cons d ms ih =>
      rw [List.foldl_cons, skipReplay]
      by_cases h : p.is_step_valid d = true
      · rw [replayStep, if_pos h, if_pos h, ih]
      · rw [replayStep, if_neg h, if_neg h, ih]

lemma replayStep_false (ms : List Direction) (p : Path) :
    (ms.foldl replayStep (p, false)).2 = false := by
  induction ms generalizing p with
  | nil => rfl
  | cons d ms ih =>
      rw [List.foldl_cons, replayStep]
      by_cases h : p.is_step_valid d = true
      · rw [if_pos h]; exact ih _
      · rw [if_neg h]; exact ih _

lemma replayStep_snd (ms : List Direction) (p : Path) :
    (ms.foldl replayStep (p, true)).2 = validFrom p ms := by
  induction ms generalizing p with
  | nil => rfl
  | cons d ms ih =>
      rw [List.foldl_cons, validFrom_cons, replayStep]
      by_cases h : p.is_step_valid d = true
      · rw [if_pos h, h, Bool.true_and]; exact ih _
      · rw [if_neg h]
        simp only [Bool.and_eq_false_imp]
        rw [replayStep_false]
        cases hd : p.is_step_valid d
        · rfl
        · exact absurd hd h

lemma replayStep_of_valid (ms : List Direction) (p : Path)
    (hv : validFrom p ms = true) :
    ms.foldl replayStep (p, true) = (followFrom p ms, true) := by
  induction ms generalizing p with
  | nil => rfl
  | cons d ms ih =>
      rw [validFrom_cons, Bool.and_eq_true] at hv
      rw [List.foldl_cons, replayStep, if_pos hv.1, followFrom_cons]
      exact ih _ hv.2

lemma replayBits_skip (g : Grid) (steps bits : Nat) :
    (replayBits g steps bits).1 = skipReplay (Path.start g) (bitsToMoves bits steps) :=
  replayStep_fst_skip _ _ _

lemma replayBits_snd (g : Grid) (steps bits : Nat) :
    (replayBits g steps bits).2 = validMoves g (bitsToMoves bits steps) :=
  replayStep_snd _ _

lemma replayBits_of_valid (g : Grid) (steps bits : Nat)
    (hv : validMoves g (bitsToMoves bits steps) = true) :
    replayBits g steps bits = (followAll g (bitsToMoves bits steps), true) :=
  replayStep_of_valid _ _ hv

/-! ## Bit patterns encode exactly the move sequences of their length -/

lemma encodeMoves_lt (ms : List Direction) : encodeMoves ms < 2 ^ ms.length := by
  induction ms with
  | nil => simp [encodeMoves]
  | cons d ms ih =>
      rw [encodeMoves, List.length_cons, pow_succ]
      cases d <;> simp <;> omega

lemma bitDir_zero (d0 m : Nat) (hd : d0 ≤ 1) :
    bitDir (d0 + 2 * m) 0 = (if d0 = 1 then Direction.east else Direction.south) := by
  have h2 : (d0 + 2 * m) % 2 = d0 := by omega
  simp [bitDir, Nat.shiftRight_zero, h2]

lemma bitDir_succ (d0 m k : Nat) (hd : d0 ≤ 1) :
    bitDir (d0 + 2 * m) (k + 1) = bitDir m k := by
  have h : (d0 + 2 * m) >>> (k + 1) = m >>> k := by
    rw [Nat.shiftRight_eq_div_pow, Nat.shiftRight_eq_div_pow, pow_succ]
    rw [Nat.mul_comm (2 ^ k) 2, ← Nat.div_div_eq_div_mul]
    congr 1
    omega
  rw [bitDir, bitDir, h]

lemma bitsToMoves_encode (ms : List Direction) :
    bitsToMoves (encodeMoves ms) ms.length = ms := by
  induction ms with
  | nil => rfl
  | cons d ms ih =>
      rw [List.length_cons, bitsToMoves, List.range_succ_eq_map, List.map_cons, List.map_map]
      rw [encodeMoves]
      have hd : (if d = Direction.east then 1 else 0) ≤ 1 := by
        cases d <;> simp
      congr 1
      · rw [bitDir_zero _ _ hd]
        cases d <;> simp
      · have : (bitDir (((if d = Direction.east then 1 else 0)) + 2 * encodeMoves ms)) ∘
            Nat.succ = bitDir (encodeMoves ms) := by
          funext k
          exact bitDir_succ _ _ k hd
        rw [this]
        exact ih

/-! ## Fold invariants of the candidate selection -/

lemma pickBits_cons (g : Grid) (steps : Nat) (bits : Nat) (l : List Nat) (best : Path) :
    pickBits g steps (bits :: l) best =
      pickBits g steps l
        (if (replayBits g steps bits).2 &&
            decide (best.total_cranes < (replayBits g steps bits).1.total_cranes) then
          (replayBits g steps bits).1
        else best) := rfl

lemma pickBits_mono (g : Grid) (steps : Nat) (l : List Nat) (best : Path) :
    best.total_cranes ≤ (pickBits g steps l best).total_cranes := by
  induction l generalizing best with
  | nil => exact Nat.le_refl _
  | cons bits l ih =>
      rw [pickBits_cons]
      by_cases h : ((replayBits g steps bits).2 &&
          decide (best.total_cranes < (replayBits g steps bits).1.total_cranes)) = true
      · rw [if_pos h]
        simp only [Bool.and_eq_true, decide_eq_true_eq] at h
        exact Nat.le_trans (Nat.le_of_lt h.2) (ih _)
      · rw [if_neg h]; exact ih _

lemma pickBits_reaches (g : Grid) (steps : Nat) (l : List Nat) (best : Path)
    (hb : ∃ ms, validMoves g ms = true ∧ followAll g ms = best) :
    ∃ ms, validMoves g ms = true ∧ followAll g ms = pickBits g steps l best := by
  induction l generalizing best with
  | nil => exact hb
  | cons bits l ih =>
      rw [pickBits_cons]
      by_cases h : ((replayBits g steps bits).2 &&
          decide (best.total_cranes < (replayBits g steps bits).1.total_cranes)) = true
      · rw [if_pos h]
        simp only [Bool.and_eq_true, decide_eq_true_eq] at h
        apply ih
        have hv : validMoves g (bitsToMoves bits steps) = true := by
          rw [← replayBits_snd]; exact h.1
        refine ⟨bitsToMoves bits steps, hv, ?_⟩
        rw [replayBits_of_valid g steps bits hv]
      · rw [if_neg h]; exact ih _ hb

lemma pickBits_ge (g : Grid) (steps : Nat) (l : List Nat) (best : Path)
    (bits : Nat) (hmem : bits ∈ l)
    (hv : (replayBits g steps bits).2 = true) :
    (replayBits g steps bits).1.total_cranes ≤ (pickBits g steps l best).total_cranes := by
  induction l generalizing best with
  | nil => cases hmem
  | cons b0 l ih =>
      rw [pickBits_cons]
      rcases List.mem_cons.mp hmem with heq | hmem'
      · subst heq
        by_cases h : ((replayBits g steps bits).2 &&
            decide (best.total_cranes < (replayBits g steps bits).1.total_cranes)) = true
        · rw [if_pos h]; exact pickBits_mono _ _ _ _
        · rw [if_neg h]
          simp only [Bool.and_eq_true, decide_eq_true_eq, not_and, Nat.not_lt] at h
          exact Nat.le_trans (h hv) (pickBits_mono _ _ _ _)
      · by_cases h : ((replayBits g steps b0).2 &&
            decide (best.total_cranes < (replayBits g steps b0).1.total_cranes)) = true
        · rw [if_pos h]; exact ih _ hmem'
        · rw [if_neg h]; exact ih _ hmem'

lemma pickBits_keep (g : Grid) (steps : Nat) (l : List Nat) (best : Path)
    (h : ∀ bits ∈ l, (replayBits g steps bits).2 = true →
      (replayBits g steps bits).1.total_cranes ≤ best.total_cranes) :
    pickBits g steps l best = best := by
  induction l generalizing best with
  | nil => rfl
  | cons bits l ih =>
      rw [pickBits_cons]
      have hcond : ((replayBits g steps bits).2 &&
          decide (best.total_cranes < (replayBits g steps bits).1.total_cranes)) = false := by
        cases hv : (replayBits g steps bits).2
        · rfl
        · have := h bits (List.mem_cons_self _ _) hv
          simp [Nat.not_lt.mpr this]
      rw [hcond]
      simp only [Bool.false_eq_true, if_false]
      exact ih _ (fun b hb => h b (List.mem_cons_of_mem _ hb))

lemma pickBits_cases (g : Grid) (steps : Nat) (l : List Nat) (best : Path) :
    pickBits g steps l best = best ∨
      ∃ bits ∈ l, (replayBits g steps bits).2 = true ∧
        pickBits g steps l best = (replayBits g steps bits).1 ∧
        best.total_cranes < (replayBits g steps bits).1.total_cranes := by
  induction l generalizing best with
  | nil => exact Or.inl rfl
  | cons bits l ih =>
      rw [pickBits_cons]
      by_cases h : ((replayBits g steps bits).2 &&
          decide (best.total_cranes < (replayBits g steps bits).1.total_cranes)) = true
      · rw [if_pos h]
        simp only [Bool.and_eq_true, decide_eq_true_eq] at h
        rcases ih ((replayBits g steps bits).1) with heq | ⟨b', hb', hv', heq', hlt'⟩
        · exact Or.inr ⟨bits, List.mem_cons_self _ _, h.1, heq, h.2⟩
        · exact Or.inr ⟨b', List.mem_cons_of_mem _ hb', hv', heq',
            Nat.lt_trans h.2 hlt'⟩
      · rw [if_neg h]
        rcases ih best with heq | ⟨b', hb', hv', heq', hlt'⟩
        · exact Or.inl heq
        · exact Or.inr ⟨b', List.mem_cons_of_mem _ hb', hv', heq', hlt'⟩

lemma pickBits_filter (g : Grid) (steps : Nat) (l : List Nat) (best : Path) :
    pickBits g steps l best =
      pickBits g steps (l.filter (fun bits => (replayBits g steps bits).2)) best := by
  induction l generalizing best with
  | nil => rfl
  | cons bits l ih =>
      rw [pickBits_cons]
      cases hv : (replayBits g steps bits).2
      · rw [List.filter_cons_of_neg (by simp [hv])]
        simp only [Bool.false_and, Bool.false_eq_true, if_false]
        exact ih _
      · rw [List.filter_cons_of_pos (by simp [hv])]
        rw [pickBits_cons, hv]
        exact ih _

/-! ## The outer loop of the exhaustive solver -/

/-- The steps-loop of cranes_algs.hpp lines 39-67 over an arbitrary list of
step counts. -/
def pickAll (g : Grid) (L : List Nat) (best : Path) : Path :=
  L.foldl (fun best steps => pickBits g steps (List.range (2 ^ steps)) best) best

lemma crane_unloading_exhaustive_eq (g : Grid) :
    crane_unloading_exhaustive g =
      pickAll g (List.range' 1 (g.rows + g.columns - 2)) (Path.start g) := rfl

lemma pickAll_cons (g : Grid) (steps : Nat) (L : List Nat) (best : Path) :
    pickAll g (steps :: L) best =
      pickAll g L (pickBits g steps (List.range (2 ^ steps)) best) := rfl

lemma pickAll_mono (g : Grid) (L : List Nat) (best : Path) :
    best.total_cranes ≤ (pickAll g L best).total_cranes := by
  induction L generalizing best with
  | nil => exact Nat.le_refl _
  | cons steps L ih =>
      rw [pickAll_cons]
      exact Nat.le_trans (pickBits_mono _ _ _ _) (ih _)

lemma pickAll_reaches (g : Grid) (L : List Nat) (best : Path)
    (hb : ∃ ms, validMoves g ms = true ∧ followAll g ms = best) :
    ∃ ms, validMoves g ms = true ∧ followAll g ms = pickAll g L best := by
  induction L generalizing best with
  | nil => exact hb
  | cons steps L ih =>
      rw [pickAll_cons]
      exact ih _ (pickBits_reaches _ _ _ _ hb)

lemma pickAll_ge (g : Grid) (L : List Nat) (best : Path)
    (steps : Nat) (hsteps : steps ∈ L)
    (bits : Nat) (hbits : bits ∈ List.range (2 ^ steps))
    (hv : (replayBits g steps bits).2 = true) :
    (replayBits g steps bits).1.total_cranes ≤ (pickAll g L best).total_cranes := by
  induction L generalizing best with
  | nil => cases hsteps
  | cons s0 L ih =>
      rw [pickAll_cons]
      rcases List.mem_cons.mp hsteps with heq | hmem
      · subst heq
        exact Nat.le_trans (pickBits_ge _ _ _ _ _ hbits hv) (pickAll_mono _ _ _)
      · exact ih _ hmem

/-- Any valid move sequence of length at most the diagonal bound is dominated
by the exhaustive solver's result. -/
lemma exhaustive_ge (g : Grid) (ms : List Direction)
    (hv : validMoves g ms = true)
    (hlen : ms.length ≤ g.rows + g.columns - 2) :
    (followAll g ms).total_cranes ≤ (crane_unloading_exhaustive g).total_cranes := by
  rw [crane_unloading_exhaustive_eq]
  cases hms : ms with
  | nil =>
      have : followAll g [] = Path.start g := rfl
      rw [this]
      exact pickAll_mono _ _ _
  | cons d tl =>
      rw [← hms]
      have hpos : 1 ≤ ms.length := by rw [hms]; simp
      have hsteps : ms.length ∈ List.range' 1 (g.rows + g.columns - 2) := by
        rw [List.mem_range'_1]
        exact ⟨hpos, by omega⟩
      have hbits : encodeMoves ms ∈ List.range (2 ^ ms.length) :=
        List.mem_range.mpr (encodeMoves_lt ms)
      have hdec : bitsToMoves (encodeMoves ms) ms.length = ms := bitsToMoves_encode ms
      have hv' : validMoves g (bitsToMoves (encodeMoves ms) ms.length) = true := by
        rw [hdec]; exact hv
      have hsnd : (replayBits g ms.length (encodeMoves ms)).2 = true := by
        rw [replayBits_snd]; exact hv'
      have hfst : (replayBits g ms.length (encodeMoves ms)).1 = followAll g ms := by
        rw [replayBits_of_valid g ms.length (encodeMoves ms) hv', hdec]
      rw [← hfst]
      exact pickAll_ge g _ (Path.start g) ms.length hsteps (encodeMoves ms) hbits hsnd

/-- The exhaustive solver returns an optimal path: its crane count is
realised by a valid move sequence and dominates every valid move sequence. -/
theorem exhaustive_optimal (g : Grid) (hr : 0 < g.rows) (hc : 0 < g.columns) :
    IsOptimal g (crane_unloading_exhaustive g) := by
  constructor
  · rw [crane_unloading_exhaustive_eq]
    exact pickAll_reaches g _ (Path.start g) ⟨[], rfl, rfl⟩
  · intro ms hv
    exact exhaustive_ge g ms hv (validMoves_length g ms hr hc hv)

/-! ## Unfolding the dynamic-programming table -/

lemma dpEntry_origin (g : Grid) : dpEntry g 0 0 = some (Path.start g) := by
  rw [dpEntry]
  by_cases hb : g.get 0 0 = Cell.building
  · rw [if_pos hb]; rfl
  · rw [if_neg hb]; simp [combineCands]

lemma dpEntry_building (g : Grid) (r c : Nat)
    (hb : g.get r c = Cell.building) (hne : ¬(r = 0 ∧ c = 0)) :
    dpEntry g r c = none := by
  rw [dpEntry, if_pos hb, if_neg]
  simp only [Bool.and_eq_true, beq_iff_eq]
  exact hne

lemma dpEntry_not_building (g : Grid) (r c : Nat)
    (hb : ¬ g.get r c = Cell.building) :
    dpEntry g r c =
      combineCands (fromAboveCand g r c) (fromLeftCand g r c)
        (if r == 0 && c == 0 then some (Path.start g) else none) := by
  rw [dpEntry, if_neg hb]
  simp only [dite_eq_ite]
  rfl

lemma combine_left (a : Path) (fl pre : Option Path) :
    ∃ p, combineCands (some a) fl pre = some p ∧ a.total_cranes ≤ p.total_cranes := by
  cases fl with
  | none => exact ⟨a, rfl, Nat.le_refl _⟩
  | some l =>
      by_cases h : a.total_cranes > l.total_cranes
      · exact ⟨a, by simp [combineCands, h], Nat.le_refl _⟩
      · exact ⟨l, by simp [combineCands, h], Nat.le_of_not_lt h⟩

lemma combine_right (fa : Option Path) (l : Path) (pre : Option Path) :
    ∃ p, combineCands fa (some l) pre = some p ∧ l.total_cranes ≤ p.total_cranes := by
  cases fa with
  | none => exact ⟨l, rfl, Nat.le_refl _⟩
  | some a =>
      by_cases h : a.total_cranes > l.total_cranes
      · exact ⟨a, by simp [combineCands, h], Nat.le_of_lt h⟩
      · exact ⟨l, by simp [combineCands, h], Nat.le_refl _⟩

lemma combine_cases (fa fl pre : Option Path) (p : Path)
    (h : combineCands fa fl pre = some p) :
    fa = some p ∨ fl = some p ∨ (fa = none ∧ fl = none ∧ pre = some p) := by
  cases fa with
  | none =>
      cases fl with
      | none => exact Or.inr (Or.inr ⟨rfl, rfl, h⟩)
      | some l => exact Or.inr (Or.inl h)
  | some a =>
      cases fl with
      | none => exact Or.inl h
      | some l =>
          rw [combineCands] at h
          by_cases hgt : a.total_cranes > l.total_cranes
          · rw [if_pos hgt] at h; exact Or.inl h
          · rw [if_neg hgt] at h; exact Or.inr (Or.inl h)

lemma step_valid_of_target (p : Path) (d : Direction)
    (hr : (stepTarget p d).1 < p.g.rows) (hc : (stepTarget p d).2 < p.g.columns)
    (hb : p.g.get (stepTarget p d).1 (stepTarget p d).2 ≠ Cell.building) :
    p.is_step_valid d = true := by
  simp [Path.is_step_valid, hr, hc, hb]

lemma stepTarget_east (p : Path) : stepTarget p Direction.east = (p.row, p.col + 1) := rfl

lemma stepTarget_south (p : Path) : stepTarget p Direction.south = (p.row + 1, p.col) := rfl

lemma add_step_cranes (p : Path) (d : Direction) :
    (p.add_step d).total_cranes = p.total_cranes +
      (if p.g.get (stepTarget p d).1 (stepTarget p d).2 = Cell.crane then 1 else 0) := rfl

/-- Soundness of the table: every present entry at an in-bounds cell is the
replay of some valid move sequence ending exactly at that cell. -/
lemma dp_sound (g : Grid) : ∀ (n r c : Nat), r + c = n →
    r < g.rows → c < g.columns → ∀ p, dpEntry g r c = some p →
    ∃ ms, validMoves g ms = true ∧ followAll g ms = p ∧ p.row = r ∧ p.col = c := by
  intro n
  induction n using Nat.strong_induction_on with
  | _ n ih =>
      intro r c hn hr hc p hp
      by_cases hb : g.get r c = Cell.building
      · by_cases h00 : r = 0 ∧ c = 0
        · rcases h00 with ⟨h1, h2⟩
          subst h1; subst h2
          rw [dpEntry_origin] at hp
          exact ⟨[], rfl, by rw [← Option.some_inj.mp hp]; exact ⟨rfl, rfl, rfl⟩⟩
        · rw [dpEntry_building g r c hb h00] at hp
          cases hp
      · rw [dpEntry_not_building g r c hb] at hp
        rcases combine_cases _ _ _ _ hp with hfa | hfl | ⟨_, _, hpre⟩
        · -- the entry came from the cell above
          rw [fromAboveCand] at hfa
          by_cases hrpos : 0 < r
          · rw [if_pos hrpos] at hfa
            cases hup : dpEntry g (r - 1) c with
            | none => rw [hup] at hfa; cases hfa
            | some pa =>
                rw [hup, extendOpt] at hfa
                have hlt : r - 1 + c < n := by omega
                rcases ih _ hlt (r - 1) c rfl (by omega) hc pa hup with
                  ⟨ms', hv', hf', hrow', hcol'⟩
                have hg' : pa.g = g := by rw [← hf']; exact followAll_g g ms'
                have htgt : stepTarget pa Direction.south = (r, c) := by
                  rw [stepTarget_south, hrow', hcol']
                  congr 1
                  omega
                have hsv : pa.is_step_valid Direction.south = true := by
                  apply step_valid_of_target
                  · rw [htgt, hg']; exact hr
                  · rw [htgt, hg']; exact hc
                  · rw [htgt, hg']; exact hb
                rw [if_pos hsv] at hfa
                have hpa : p = pa.add_step Direction.south := (Option.some_inj.mp hfa).symm
                refine ⟨ms' ++ [Direction.south], ?_, ?_, ?_, ?_⟩
                · rw [validMoves, validFrom_append_single]
                  rw [validMoves] at hv'
                  rw [hv', Bool.true_and]
                  show (followAll g ms').is_step_valid Direction.south = true
                  rw [hf']; exact hsv
                · rw [followAll, followFrom_append_single]
                  show (followAll g ms').add_step Direction.south = p
                  rw [hf', hpa]
                · rw [hpa]; show (stepTarget pa Direction.south).1 = r; rw [htgt]
                · rw [hpa]; show (stepTarget pa Direction.south).2 = c; rw [htgt]
          · rw [if_neg hrpos] at hfa; cases hfa
        · -- the entry came from the cell to the left
          rw [fromLeftCand] at hfl
          by_cases hcpos : 0 < c
          · rw [if_pos hcpos] at hfl
            cases hup : dpEntry g r (c - 1) with
            | none => rw [hup] at hfl; cases hfl
            | some pl =>
                rw [hup, extendOpt] at hfl
                have hlt : r + (c - 1) < n := by omega
                rcases ih _ hlt r (c - 1) rfl hr (by omega) pl hup with
                  ⟨ms', hv', hf', hrow', hcol'⟩
                have hg' : pl.g = g := by rw [← hf']; exact followAll_g g ms'
                have htgt : stepTarget pl Direction.east = (r, c) := by
                  rw [stepTarget_east, hrow', hcol']
                  congr 1
                  omega
                have hsv : pl.is_step_valid Direction.east = true := by
                  apply step_valid_of_target
                  · rw [htgt, hg']; exact hr
                  · rw [htgt, hg']; exact hc
                  · rw [htgt, hg']; exact hb
                rw [if_pos hsv] at hfl
                have hpl : p = pl.add_step Direction.east := (Option.some_inj.mp hfl).symm
                refine ⟨ms' ++ [Direction.east], ?_, ?_, ?_, ?_⟩
                · rw [validMoves, validFrom_append_single]
                  rw [validMoves] at hv'
                  rw [hv', Bool.true_and]
                  show (followAll g ms').is_step_valid Direction.east = true
                  rw [hf']; exact hsv
                · rw [followAll, followFrom_append_single]
                  show (followAll g ms').add_step Direction.east = p
                  rw [hf', hpl]
                · rw [hpl]; show (stepTarget pl Direction.east).1 = r; rw [htgt]
                · rw [hpl]; show (stepTarget pl Direction.east).2 = c; rw [htgt]
          · rw [if_neg hcpos] at hfl; cases hfl
        · -- neither candidate: only the preset origin value
          by_cases h00 : (r == 0 && c == 0) = true
          · simp only [Bool.and_eq_true, beq_iff_eq] at h00
            rcases h00 with ⟨h1, h2⟩
            subst h1; subst h2
            have h0b : ((0 == 0 && 0 == 0) : Bool) = true := rfl
            rw [if_pos h0b] at hpre
            exact ⟨[], rfl, by rw [← Option.some_inj.mp hpre]; exact ⟨rfl, rfl, rfl⟩⟩
          · rw [if_neg h00] at hpre
            cases hpre

/-- Completeness of the table: every valid move sequence is dominated by the
table entry at its end cell. -/
lemma dp_complete (g : Grid) (hr : 0 < g.rows) (hc : 0 < g.columns) :
    ∀ ms, validMoves g ms = true →
    ∃ p, dpEntry g (followAll g ms).row (followAll g ms).col = some p ∧
      (followAll g ms).total_cranes ≤ p.total_cranes := by
  intro ms
  induction ms using List.reverseRecOn with
  | nil =>
      intro _
      refine ⟨Path.start g, ?_, Nat.le_refl _⟩
      exact dpEntry_origin g
  | append_singleton ms d ih =>
      intro hv
      rw [validMoves, validFrom_append_single, Bool.and_eq_true] at hv
      obtain ⟨hv1, hv2⟩ := hv
      have hq := is_step_valid_target (followFrom (Path.start g) ms) d hv2
      have hqg : (followFrom (Path.start g) ms).g = g := followFrom_g _ _
      rw [hqg] at hq
      have hqb := validFrom_bounds (Path.start g) ms hr hc hv1
      have hgs : (Path.start g).g = g := rfl
      rw [hgs] at hqb
      obtain ⟨p', hp', hle⟩ := ih hv1
      obtain ⟨ms'', hv'', hf'', hrow'', hcol''⟩ :=
        dp_sound g ((followAll g ms).row + (followAll g ms).col)
          (followAll g ms).row (followAll g ms).col rfl hqb.1 hqb.2 p' hp'
      have hg'' : p'.g = g := by rw [← hf'']; exact followAll_g g ms''
      have htp' : stepTarget p' d = stepTarget (followAll g ms) d := by
        cases d <;> simp [stepTarget, hrow'', hcol'']
      have hsv' : p'.is_step_valid d = true := by
        apply step_valid_of_target
        · rw [htp', hg'']; exact hq.1
        · rw [htp', hg'']; exact hq.2.1
        · rw [htp', hg'']; exact hq.2.2
      have hfollow : followAll g (ms ++ [d]) = (followAll g ms).add_step d :=
        followFrom_append_single _ _ _
      have hrow : (followAll g (ms ++ [d])).row = (stepTarget (followAll g ms) d).1 := by
        rw [hfollow]; rfl
      have hcol : (followAll g (ms ++ [d])).col = (stepTarget (followAll g ms) d).2 := by
        rw [hfollow]; rfl
      have hcr : (followAll g (ms ++ [d])).total_cranes ≤ (p'.add_step d).total_cranes := by
        rw [hfollow, add_step_cranes, add_step_cranes, htp', hg'', followAll_g]
        exact Nat.add_le_add_right hle _
      have hbnb : ¬ g.get (stepTarget (followAll g ms) d).1
          (stepTarget (followAll g ms) d).2 = Cell.building := hq.2.2
      cases d with
      | east =>
          have hfl : fromLeftCand g (stepTarget (followAll g ms) Direction.east).1
              (stepTarget (followAll g ms) Direction.east).2 = some (p'.add_step Direction.east) := by
            rw [stepTarget_east, fromLeftCand]
            simp only [Nat.succ_sub_one, Nat.zero_lt_succ, if_true]
            rw [hp', extendOpt, if_pos hsv']
          obtain ⟨pbig, hcomb, hble⟩ :=
            combine_right (fromAboveCand g (stepTarget (followAll g ms) Direction.east).1
              (stepTarget (followAll g ms) Direction.east).2) (p'.add_step Direction.east)
              (if (stepTarget (followAll g ms) Direction.east).1 == 0 &&
                  (stepTarget (followAll g ms) Direction.east).2 == 0 then
                some (Path.start g) else none)
          refine ⟨pbig, ?_, Nat.le_trans hcr hble⟩
          rw [hrow, hcol, dpEntry_not_building _ _ _ hbnb, hfl]
          exact hcomb
      | south =>
          have hfa : fromAboveCand g (stepTarget (followAll g ms) Direction.south).1
              (stepTarget (followAll g ms) Direction.south).2 = some (p'.add_step Direction.south) := by
            rw [stepTarget_south, fromAboveCand]
            simp only [Nat.succ_sub_one, Nat.zero_lt_succ, if_true]
            rw [hp', extendOpt, if_pos hsv']
          obtain ⟨pbig, hcomb, hble⟩ :=
            combine_left (p'.add_step Direction.south)
              (fromLeftCand g (stepTarget (followAll g ms) Direction.south).1
                (stepTarget (followAll g ms) Direction.south).2)
              (if (stepTarget (followAll g ms) Direction.south).1 == 0 &&
                  (stepTarget (followAll g ms) Direction.south).2 == 0 then
                some (Path.start g) else none)
          refine ⟨pbig, ?_, Nat.le_trans hcr hble⟩
          rw [hrow, hcol, dpEntry_not_building _ _ _ hbnb, hfa]
          exact hcomb

/-! ## The final scan over the table -/

lemma mem_allCells (g : Grid) (r c : Nat) :
    (r, c) ∈ allCells g ↔ r < g.rows ∧ c < g.columns := by
  simp only [allCells, List.mem_flatMap, List.mem_map, List.mem_range, Prod.mk.injEq]
  constructor
  · rintro ⟨a, ha, b, hb, h1, h2⟩
    subst h1; subst h2
    exact ⟨ha, hb⟩
  · rintro ⟨h1, h2⟩
    exact ⟨r, h1, c, h2, rfl, rfl⟩

lemma scanBest_cons (g : Grid) (rc : Nat × Nat) (l : List (Nat × Nat)) (best : Option Path) :
    scanBest g (rc :: l) best =
      scanBest g l
        (match dpEntry g rc.1 rc.2, best with
         | some p, some b => if p.total_cranes > b.total_cranes then some p else best
         | _, _ => best) := rfl

lemma scanBest_some (g : Grid) (l : List (Nat × Nat)) (b : Path) :
    ∃ b', scanBest g l (some b) = some b' ∧ b.total_cranes ≤ b'.total_cranes := by
  induction l generalizing b with
  | nil => exact ⟨b, rfl, Nat.le_refl _⟩
  | cons rc l ih =>
      rw [scanBest_cons]
      cases he : dpEntry g rc.1 rc.2 with
      | none => exact ih b
      | some p =>
          by_cases hgt : p.total_cranes > b.total_cranes
          · simp only [if_pos hgt]
            obtain ⟨b', hb', hle⟩ := ih p
            exact ⟨b', hb', Nat.le_trans (Nat.le_of_lt hgt) hle⟩
          · simp only [if_neg hgt]
            exact ih b

lemma scanBest_reaches (g : Grid) (l : List (Nat × Nat)) (b : Path)
    (hcells : ∀ rc ∈ l, rc.1 < g.rows ∧ rc.2 < g.columns)
    (hb : ∃ ms, validMoves g ms = true ∧ followAll g ms = b) :
    ∀ b', scanBest g l (some b) = some b' →
      ∃ ms, validMoves g ms = true ∧ followAll g ms = b' := by
  induction l generalizing b with
  | nil =>
      intro b' h
      cases h
      exact hb
  | cons rc l ih =>
      intro b' h
      rw [scanBest_cons] at h
      cases he : dpEntry g rc.1 rc.2 with
      | none =>
          rw [he] at h
          exact ih b (fun x hx => hcells x (List.mem_cons_of_mem _ hx)) hb b' h
      | some p =>
          rw [he] at h
          by_cases hgt : p.total_cranes > b.total_cranes
          · simp only [if_pos hgt] at h
            have hbounds := hcells rc (List.mem_cons_self _ _)
            obtain ⟨ms, hv, hf, _, _⟩ :=
              dp_sound g (rc.1 + rc.2) rc.1 rc.2 rfl hbounds.1 hbounds.2 p he
            exact ih p (fun x hx => hcells x (List.mem_cons_of_mem _ hx)) ⟨ms, hv, hf⟩ b' h
          · simp only [if_neg hgt] at h
            exact ih b (fun x hx => hcells x (List.mem_cons_of_mem _ hx)) hb b' h

lemma scanBest_ge (g : Grid) (l : List (Nat × Nat)) (b : Path)
    (rc : Nat × Nat) (hmem : rc ∈ l) (p : Path) (hp : dpEntry g rc.1 rc.2 = some p) :
    ∀ b', scanBest g l (some b) = some b' → p.total_cranes ≤ b'.total_cranes := by
  induction l generalizing b with
  | nil => cases hmem
  | cons rc0 l ih =>
      intro b' h
      rw [scanBest_cons] at h
      rcases List.mem_cons.mp hmem with heq | hmem'
      · subst heq
        rw [hp] at h
        by_cases hgt : p.total_cranes > b.total_cranes
        · simp only [if_pos hgt] at h
          obtain ⟨b'', hb'', hle⟩ := scanBest_some g l p
          rw [hb''] at h
          cases h
          exact hle
        · simp only [if_neg hgt] at h
          obtain ⟨b'', hb'', hle⟩ := scanBest_some g l b
          rw [hb''] at h
          cases h
          exact Nat.le_trans (Nat.le_of_not_lt hgt) hle
      · cases he : dpEntry g rc0.1 rc0.2 with
        | none =>
            rw [he] at h
            exact ih b hmem' b' h
        | some p0 =>
            rw [he] at h
            by_cases hgt : p0.total_cranes > b.total_cranes
            · simp only [if_pos hgt] at h
              exact ih p0 hmem' b' h
            · simp only [if_neg hgt] at h
              exact ih b hmem' b' h

/-- The dynamic-programming solver returns an optimal path. -/
theorem dyn_prog_optimal (g : Grid) (hr : 0 < g.rows) (hc : 0 < g.columns) :
    IsOptimal g (crane_unloading_dyn_prog g) := by
  obtain ⟨b, hsb, hble⟩ := scanBest_some g (allCells g) (Path.start g)
  have hres : crane_unloading_dyn_prog g = b := by
    rw [crane_unloading_dyn_prog, dpEntry_origin, hsb]
  have hcells : ∀ rc ∈ allCells g, rc.1 < g.rows ∧ rc.2 < g.columns := by
    intro rc hrc
    rcases rc with ⟨r, c⟩
    exact (mem_allCells g r c).mp hrc
  rw [hres]
  constructor
  · exact scanBest_reaches g (allCells g) (Path.start g) hcells ⟨[], rfl, rfl⟩ b hsb
  · intro ms hv
    have hqb := validFrom_bounds (Path.start g) ms hr hc hv
    have hgs : (Path.start g).g = g := rfl
    rw [hgs] at hqb
    obtain ⟨p, hp, hle⟩ := dp_complete g hr hc ms hv
    have hmem : ((followAll g ms).row, (followAll g ms).col) ∈ allCells g :=
      (mem_allCells g _ _).mpr ⟨hqb.1, hqb.2⟩
    exact Nat.le_trans hle (scanBest_ge g (allCells g) (Path.start g) _ hmem p hp b hsb)

/-! ## Visited cells of a move sequence -/

lemma posList_head (q : Nat × Nat) (ms : List Direction) :
    (posList q ms).head? = some q := by
  cases ms <;> rfl

lemma posList_chain (q : Nat × Nat) (ms : List Direction) :
    List.Chain' (fun a b => b = stepPos a Direction.east ∨ b = stepPos a Direction.south)
      (posList q ms) := by
  induction ms generalizing q with
  | nil => exact List.chain'_singleton q
  | cons d ms ih =>
      rw [posList, List.chain'_cons']
      refine ⟨?_, ih _⟩
      intro h hh
      rw [posList_head] at hh
      cases hh
      cases d
      · exact Or.inl rfl
      · exact Or.inr rfl

lemma stepPos_pair (p : Path) (d : Direction) :
    stepPos (p.row, p.col) d = stepTarget p d := by
  cases d <;> rfl

lemma posList_valid (ms : List Direction) (p : Path)
    (hv : validFrom p ms = true)
    (hr : p.row < p.g.rows) (hc : p.col < p.g.columns)
    (hb : p.g.get p.row p.col ≠ Cell.building) :
    ∀ q ∈ posList (p.row, p.col) ms,
      q.1 < p.g.rows ∧ q.2 < p.g.columns ∧ p.g.get q.1 q.2 ≠ Cell.building := by
  induction ms generalizing p with
  | nil =>
      intro q hq
      rw [posList, List.mem_singleton] at hq
      subst hq
      exact ⟨hr, hc, hb⟩
  | cons d ms ih =>
      intro q hq
      rw [posList, List.mem_cons] at hq
      rcases hq with hq | hq
      · subst hq
        exact ⟨hr, hc, hb⟩
      · rw [validFrom_cons, Bool.and_eq_true] at hv
        have ht := is_step_valid_target p d hv.1
        have hnext : stepPos (p.row, p.col) d = ((p.add_step d).row, (p.add_step d).col) := by
          rw [stepPos_pair]
          exact Prod.ext rfl rfl
        rw [hnext] at hq
        have := ih (p.add_step d) hv.2
          (by rw [add_step_g]; exact ht.1)
          (by rw [add_step_g]; exact ht.2.1)
          (by rw [add_step_g]; exact ht.2.2) q hq
        rwa [add_step_g] at this

lemma posList_start (g : Grid) (ms : List Direction)
    (hv : validMoves g ms = true)
    (hr : 0 < g.rows) (hc : 0 < g.columns) (h0 : g.get 0 0 ≠ Cell.building) :
    ∀ q ∈ posList (0, 0) ms,
      q.1 < g.rows ∧ q.2 < g.columns ∧ g.get q.1 q.2 ≠ Cell.building := by
  have h := posList_valid ms (Path.start g) hv hr hc h0
  exact h

/-! ## The precondition assertions of the two solvers

The C++ solvers enforce their preconditions with assert before any search
work: non-empty grid for both, and max_steps < 64 for the exhaustive solver
(cranes_algs.hpp lines 30-35 and 79-80).  crane_unloading_dyn_prog
additionally asserts that A[0][0] and the final best entry are present
(lines 87, 136, 146).  The checked variants return none exactly when an
assertion fires. -/

def crane_unloading_exhaustive_checked (g : Grid) : Option Path :=
  if 0 < g.rows ∧ 0 < g.columns ∧ g.rows + g.columns - 2 < 64 then
    some (crane_unloading_exhaustive g)
  else none

def crane_unloading_dyn_prog_checked (g : Grid) : Option Path :=
  if 0 < g.rows ∧ 0 < g.columns then
    match dpEntry g 0 0 with
    | some _ =>
        match scanBest g (allCells g) (dpEntry g 0 0) with
        | some b => some b
        | none => none
    | none => none
  else none

/-! ## Concrete grids used as witnesses and counterexamples -/

/-- A 2-by-2 grid with no cranes and no buildings. -/
def gAll2 : Grid := ⟨2, 2, fun _ _ => Cell.empty⟩

/-- A 2-by-2 grid with a building at (0,1). -/
def gB : Grid := ⟨2, 2, fun r c => if r = 0 ∧ c = 1 then Cell.building else Cell.empty⟩

/-- A 1-by-1 grid whose single cell holds a crane. -/
def gOne : Grid := ⟨1, 1, fun _ _ => Cell.crane⟩

lemma gAll2_e01 : dpEntry gAll2 0 1 = some ((Path.start gAll2).add_step Direction.east) := by
  rw [dpEntry_not_building gAll2 0 1 (by decide)]
  have hfa : fromAboveCand gAll2 0 1 = none := by rw [fromAboveCand]; rfl
  have hfl : fromLeftCand gAll2 0 1 = some ((Path.start gAll2).add_step Direction.east) := by
    rw [fromLeftCand, if_pos (by decide : (0:Nat) < 1)]
    have h1 : (1:Nat) - 1 = 0 := rfl
    rw [h1, dpEntry_origin, extendOpt, if_pos (by decide)]
  rw [hfa, hfl]
  rfl

lemma gAll2_e10 : dpEntry gAll2 1 0 = some ((Path.start gAll2).add_step Direction.south) := by
  rw [dpEntry_not_building gAll2 1 0 (by decide)]
  have hfl : fromLeftCand gAll2 1 0 = none := by rw [fromLeftCand]; rfl
  have hfa : fromAboveCand gAll2 1 0 = some ((Path.start gAll2).add_step Direction.south) := by
    rw [fromAboveCand, if_pos (by decide : (0:Nat) < 1)]
    have h1 : (1:Nat) - 1 = 0 := rfl
    rw [h1, dpEntry_origin, extendOpt, if_pos (by decide)]
  rw [hfa, hfl]
  rfl

lemma gAll2_fa11 :
    fromAboveCand gAll2 1 1 = some (followAll gAll2 [Direction.east, Direction.south]) := by
  rw [fromAboveCand, if_pos (by decide : (0:Nat) < 1)]
  have h1 : (1:Nat) - 1 = 0 := rfl
  rw [h1, gAll2_e01, extendOpt, if_pos (by decide)]
  rfl

lemma gAll2_fl11 :
    fromLeftCand gAll2 1 1 = some (followAll gAll2 [Direction.south, Direction.east]) := by
  rw [fromLeftCand, if_pos (by decide : (0:Nat) < 1)]
  have h1 : (1:Nat) - 1 = 0 := rfl
  rw [h1, gAll2_e10, extendOpt, if_pos (by decide)]
  rfl

/-! ## The claims -/

/-- Claim C1: for every non-empty grid whose top-left cell is not BUILDING
and with rows + columns - 2 < 64, the paths returned by
crane_unloading_exhaustive and crane_unloading_dyn_prog have the same
total_cranes value. -/
theorem claim_C1 (g : Grid) (hr : 0 < g.rows) (hc : 0 < g.columns)
    (_h0 : g.get 0 0 ≠ Cell.building) (_h64 : g.rows + g.columns - 2 < 64) :
    (crane_unloading_exhaustive g).total_cranes =
      (crane_unloading_dyn_prog g).total_cranes := by
  obtain ⟨⟨msE, hvE, hfE⟩, hgeE⟩ := exhaustive_optimal g hr hc
  obtain ⟨⟨msD, hvD, hfD⟩, hgeD⟩ := dyn_prog_optimal g hr hc
  apply Nat.le_antisymm
  · rw [← hfE]
    exact hgeD msE hvE
  · rw [← hfD]
    exact hgeE msD hvD

theorem claim_C1_witness :
    0 < gAll2.rows ∧ 0 < gAll2.columns ∧ gAll2.get 0 0 ≠ Cell.building ∧
      gAll2.rows + gAll2.columns - 2 < 64 ∧
      (crane_unloading_exhaustive gAll2).total_cranes =
        (crane_unloading_dyn_prog gAll2).total_cranes :=
  ⟨by decide, by decide, by decide, by decide,
    claim_C1 gAll2 (by decide) (by decide) (by decide) (by decide)⟩

/-- Claim C2, counterexample: on the all-empty 2-by-2 grid, at cell (1,1)
both candidates exist with equal crane counts, yet the table entry is the
from_left candidate (moves SOUTH then EAST), not the from_above candidate
(moves EAST then SOUTH) the claim requires. -/
theorem claim_C2_counterexample :
    fromAboveCand gAll2 1 1 = some (followAll gAll2 [Direction.east, Direction.south]) ∧
    fromLeftCand gAll2 1 1 = some (followAll gAll2 [Direction.south, Direction.east]) ∧
    (followAll gAll2 [Direction.east, Direction.south]).total_cranes =
      (followAll gAll2 [Direction.south, Direction.east]).total_cranes ∧
    dpEntry gAll2 1 1 = some (followAll gAll2 [Direction.south, Direction.east]) ∧
    followAll gAll2 [Direction.south, Direction.east] ≠
      followAll gAll2 [Direction.east, Direction.south] := by
  refine ⟨gAll2_fa11, gAll2_fl11, by decide, ?_, ?_⟩
  · rw [dpEntry_not_building gAll2 1 1 (by decide), gAll2_fa11, gAll2_fl11, combineCands,
      if_neg (by decide)]
  · intro h
    exact absurd (congrArg Path.moves h) (by decide)

/-- Claim C2, amended: in crane_unloading_dyn_prog, for every cell (r,c)
where both the from_above and the from_left candidate exist and have equal
crane counts, A[r][c] is set to the from_left candidate (the horizontal
extension is preferred on ties). -/
theorem claim_C2 (g : Grid) (r c : Nat) (hb : g.get r c ≠ Cell.building)
    (pa pl : Path) (ha : fromAboveCand g r c = some pa)
    (hl : fromLeftCand g r c = some pl)
    (heq : pa.total_cranes = pl.total_cranes) :
    dpEntry g r c = some pl := by
  rw [dpEntry_not_building g r c hb, ha, hl, combineCands, if_neg]
  rw [heq]
  exact Nat.lt_irrefl _

theorem claim_C2_witness :
    gAll2.get 1 1 ≠ Cell.building ∧
    (followAll gAll2 [Direction.east, Direction.south]).total_cranes =
      (followAll gAll2 [Direction.south, Direction.east]).total_cranes ∧
    dpEntry gAll2 1 1 = some (followAll gAll2 [Direction.south, Direction.east]) :=
  ⟨by decide, by decide,
    claim_C2 gAll2 1 1 (by decide)
      (followAll gAll2 [Direction.east, Direction.south])
      (followAll gAll2 [Direction.south, Direction.east])
      gAll2_fa11 gAll2_fl11 (by decide)⟩

/-- Claim C3, counterexample: on the 2-by-2 grid with a building at (0,1),
the bit pattern 1 of length 2 has an invalid first step (EAST into the
building), yet the replay still appends the later valid SOUTH step, so the
candidate is not left unextended after the first invalid step. -/
theorem claim_C3_counterexample :
    bitDir 1 0 = Direction.east ∧
    (Path.start gB).is_step_valid Direction.east = false ∧
    (replayBits gB 2 1).2 = false ∧
    (replayBits gB 2 1).1.moves = [Direction.south] := by decide

/-- Claim C3, amended: at the first step whose direction is invalid the
candidate's flag is cleared and never reset, so the final flag records
whether every step of the pattern was valid in sequence; but the replay does
not stop: it keeps attempting the remaining steps from the position reached
so far and appends each one that is valid. -/
theorem claim_C3 (g : Grid) (steps bits : Nat) :
    (replayBits g steps bits).2 = validFrom (Path.start g) (bitsToMoves bits steps) ∧
    (replayBits g steps bits).1 = skipReplay (Path.start g) (bitsToMoves bits steps) :=
  ⟨replayStep_snd _ _, replayStep_fst_skip _ _ _⟩

/-- Claim C4: the exhaustive search starts from the zero-length path at the
start cell; a candidate replaces the incumbent only if it is valid and
strictly better, so when no valid candidate beats the incumbent the
incumbent is kept (the first of equally-scoring valid candidates wins), and
any change of incumbent is to a valid, strictly better enumerated
candidate. -/
theorem claim_C4 (g : Grid) :
    crane_unloading_exhaustive g =
      pickAll g (List.range' 1 (g.rows + g.columns - 2)) (Path.start g) ∧
    (Path.start g).moves = [] ∧ (Path.start g).row = 0 ∧ (Path.start g).col = 0 ∧
    (∀ steps l best,
      (∀ bits ∈ l, (replayBits g steps bits).2 = true →
        (replayBits g steps bits).1.total_cranes ≤ best.total_cranes) →
      pickBits g steps l best = best) ∧
    (∀ steps l best, pickBits g steps l best = best ∨
      ∃ bits ∈ l, (replayBits g steps bits).2 = true ∧
        pickBits g steps l best = (replayBits g steps bits).1 ∧
        best.total_cranes < (replayBits g steps bits).1.total_cranes) :=
  ⟨rfl, rfl, rfl, rfl,
    fun steps l best h => pickBits_keep g steps l best h,
    fun steps l best => pickBits_cases g steps l best⟩

theorem claim_C4_witness :
    pickBits gB 1 [0, 1] (Path.start gB) = Path.start gB :=
  (claim_C4 gB).2.2.2.2.1 1 [0, 1] (Path.start gB) (by decide)

/-- Claim C5: on a valid grid, every path returned by either solver touches
only in-bounds non-BUILDING cells, and consecutive visited cells differ by
exactly one column (EAST) or one row (SOUTH). -/
theorem claim_C5 (g : Grid) (hr : 0 < g.rows) (hc : 0 < g.columns)
    (h0 : g.get 0 0 ≠ Cell.building) :
    ∀ p, (p = crane_unloading_exhaustive g ∨ p = crane_unloading_dyn_prog g) →
      (∀ q ∈ posList (0, 0) p.moves,
        q.1 < g.rows ∧ q.2 < g.columns ∧ g.get q.1 q.2 ≠ Cell.building) ∧
      List.Chain' (fun a b => b = stepPos a Direction.east ∨ b = stepPos a Direction.south)
        (posList (0, 0) p.moves) := by
  intro p hp
  have hreach : ∃ ms, validMoves g ms = true ∧ followAll g ms = p := by
    rcases hp with hp | hp
    · rw [hp]; exact (exhaustive_optimal g hr hc).1
    · rw [hp]; exact (dyn_prog_optimal g hr hc).1
  obtain ⟨ms, hv, hf⟩ := hreach
  have hmoves : p.moves = ms := by rw [← hf, followAll_moves]
  rw [hmoves]
  exact ⟨posList_start g ms hv hr hc h0, posList_chain _ _⟩

theorem claim_C5_witness :
    0 < gB.rows ∧ 0 < gB.columns ∧ gB.get 0 0 ≠ Cell.building ∧
    (∀ p, (p = crane_unloading_exhaustive gB ∨ p = crane_unloading_dyn_prog gB) →
      (∀ q ∈ posList (0, 0) p.moves,
        q.1 < gB.rows ∧ q.2 < gB.columns ∧ gB.get q.1 q.2 ≠ Cell.building) ∧
      List.Chain' (fun a b => b = stepPos a Direction.east ∨ b = stepPos a Direction.south)
        (posList (0, 0) p.moves)) :=
  ⟨by decide, by decide, by decide, claim_C5 gB (by decide) (by decide) (by decide)⟩

/-- Claim C6: on every 1-by-1 grid with a non-BUILDING cell, both solvers
return the zero-length start path, whose crane count is 1 if the cell holds
a crane and 0 otherwise. -/
theorem claim_C6 (g : Grid) (h1 : g.rows = 1) (h2 : g.columns = 1)
    (_h0 : g.get 0 0 ≠ Cell.building) :
    crane_unloading_exhaustive g = Path.start g ∧
    crane_unloading_dyn_prog g = Path.start g ∧
    (Path.start g).moves = [] ∧
    (Path.start g).total_cranes = (if g.get 0 0 = Cell.crane then 1 else 0) := by
  refine ⟨?_, ?_, rfl, rfl⟩
  · have hz : g.rows + g.columns - 2 = 0 := by omega
    rw [crane_unloading_exhaustive_eq, hz]
    rfl
  · have hcells : allCells g = [(0, 0)] := by
      rw [allCells, h1, h2]
      rfl
    have hs : scanBest g [(0, 0)] (some (Path.start g)) = some (Path.start g) := by
      rw [scanBest_cons]
      have h00 : dpEntry g (0, 0).1 (0, 0).2 = some (Path.start g) := dpEntry_origin g
      rw [h00]
      show scanBest g []
          (if (Path.start g).total_cranes > (Path.start g).total_cranes then
            some (Path.start g) else some (Path.start g)) = some (Path.start g)
      rw [if_neg (Nat.lt_irrefl _)]
      rfl
    rw [crane_unloading_dyn_prog, hcells, dpEntry_origin, hs]

theorem claim_C6_witness :
    gOne.rows = 1 ∧ gOne.columns = 1 ∧ gOne.get 0 0 ≠ Cell.building ∧
    crane_unloading_exhaustive gOne = Path.start gOne ∧
    crane_unloading_dyn_prog gOne = Path.start gOne ∧
    (Path.start gOne).moves = [] ∧
    (Path.start gOne).total_cranes = (if gOne.get 0 0 = Cell.crane then 1 else 0) := by
  have h := claim_C6 gOne rfl rfl (by decide)
  exact ⟨rfl, rfl, by decide, h.1, h.2.1, h.2.2.1, h.2.2.2⟩

/-- Claim C7: each solver fails its precondition assertions, placed before
any search work, exactly when the grid is empty (and, for the exhaustive
solver, also when rows + columns - 2 is at least 64); under the
complementary preconditions no assertion fires and the checked variants
return the solver results. -/
theorem claim_C7 (g : Grid) :
    (crane_unloading_exhaustive_checked g = none ↔
      ¬(0 < g.rows ∧ 0 < g.columns ∧ g.rows + g.columns - 2 < 64)) ∧
    (crane_unloading_dyn_prog_checked g = none ↔ ¬(0 < g.rows ∧ 0 < g.columns)) ∧
    (∀ p, crane_unloading_exhaustive_checked g = some p →
      p = crane_unloading_exhaustive g) ∧
    (∀ p, crane_unloading_dyn_prog_checked g = some p →
      p = crane_unloading_dyn_prog g) := by
  have hdyn : ∀ h : 0 < g.rows ∧ 0 < g.columns,
      ∃ b, crane_unloading_dyn_prog_checked g = some b ∧ crane_unloading_dyn_prog g = b := by
    intro h
    obtain ⟨b, hsb, _⟩ := scanBest_some g (allCells g) (Path.start g)
    refine ⟨b, ?_, ?_⟩
    · rw [crane_unloading_dyn_prog_checked, if_pos h, dpEntry_origin, hsb]
    · rw [crane_unloading_dyn_prog, dpEntry_origin, hsb]
  refine ⟨?_, ?_, ?_, ?_⟩
  · constructor
    · intro hnone hcond
      rw [crane_unloading_exhaustive_checked, if_pos hcond] at hnone
      cases hnone
    · intro hcond
      rw [crane_unloading_exhaustive_checked, if_neg hcond]
  · constructor
    · intro hnone hcond
      obtain ⟨b, hb, _⟩ := hdyn hcond
      rw [hnone] at hb
      cases hb
    · intro hcond
      rw [crane_unloading_dyn_prog_checked, if_neg hcond]
  · intro p hp
    by_cases hcond : 0 < g.rows ∧ 0 < g.columns ∧ g.rows + g.columns - 2 < 64
    · rw [crane_unloading_exhaustive_checked, if_pos hcond] at hp
      exact (Option.some_inj.mp hp).symm
    · rw [crane_unloading_exhaustive_checked, if_neg hcond] at hp
      cases hp
  · intro p hp
    by_cases hcond : 0 < g.rows ∧ 0 < g.columns
    · obtain ⟨b, hb, hres⟩ := hdyn hcond
      rw [hp] at hb
      rw [hres, Option.some_inj.mp hb]
    · rw [crane_unloading_dyn_prog_checked, if_neg hcond] at hp
      cases hp

/-- Claim C8: on a grid whose start cell is not BUILDING, every BUILDING
cell keeps an absent table entry, and no path stored in any in-bounds table
entry visits a BUILDING cell. -/
theorem claim_C8 (g : Grid) (h0 : g.get 0 0 ≠ Cell.building) :
    (∀ r c, g.get r c = Cell.building → dpEntry g r c = none) ∧
    (∀ r c, r < g.rows → c < g.columns → ∀ p, dpEntry g r c = some p →
      ∀ q ∈ posList (0, 0) p.moves, g.get q.1 q.2 ≠ Cell.building) := by
  constructor
  · intro r c hb
    apply dpEntry_building g r c hb
    rintro ⟨h1, h2⟩
    subst h1; subst h2
    exact h0 hb
  · intro r c hr hc p hp q hq
    obtain ⟨ms, hv, hf, _, _⟩ := dp_sound g (r + c) r c rfl hr hc p hp
    have hmoves : p.moves = ms := by rw [← hf, followAll_moves]
    rw [hmoves] at hq
    have hrpos : 0 < g.rows := by omega
    have hcpos : 0 < g.columns := by omega
    exact (posList_start g ms hv hrpos hcpos h0 q hq).2.2

theorem claim_C8_witness :
    gB.get 0 0 ≠ Cell.building ∧
    ((∀ r c, gB.get r c = Cell.building → dpEntry gB r c = none) ∧
     (∀ r c, r < gB.rows → c < gB.columns → ∀ p, dpEntry gB r c = some p →
       ∀ q ∈ posList (0, 0) p.moves, gB.get q.1 q.2 ≠ Cell.building)) :=
  ⟨by decide, claim_C8 gB (by decide)⟩

/-- Claim C9: every present in-bounds table entry ends exactly at its cell,
and in the non-BUILDING branch the guarded is_step_valid check on a present
predecessor entry always succeeds, so the copied predecessor is always
extended by exactly one step. -/
theorem claim_C9 (g : Grid) :
    ∀ r c, r < g.rows → c < g.columns →
      (∀ p, dpEntry g r c = some p → p.row = r ∧ p.col = c) ∧
      (g.get r c ≠ Cell.building → 0 < r →
        ∀ pa, dpEntry g (r - 1) c = some pa →
          pa.is_step_valid Direction.south = true ∧
          extendOpt Direction.south (some pa) = some (pa.add_step Direction.south)) ∧
      (g.get r c ≠ Cell.building → 0 < c →
        ∀ pl, dpEntry g r (c - 1) = some pl →
          pl.is_step_valid Direction.east = true ∧
          extendOpt Direction.east (some pl) = some (pl.add_step Direction.east)) := by
  intro r c hr hc
  refine ⟨?_, ?_, ?_⟩
  · intro p hp
    obtain ⟨_, _, _, hrow, hcol⟩ := dp_sound g (r + c) r c rfl hr hc p hp
    exact ⟨hrow, hcol⟩
  · intro hb hrpos pa hpa
    obtain ⟨ms, hv, hf, hrow, hcol⟩ :=
      dp_sound g (r - 1 + c) (r - 1) c rfl (by omega) hc pa hpa
    have hg : pa.g = g := by rw [← hf]; exact followAll_g g ms
    have htgt : stepTarget pa Direction.south = (r, c) := by
      rw [stepTarget_south, hrow, hcol]
      congr 1
      omega
    have hsv : pa.is_step_valid Direction.south = true := by
      apply step_valid_of_target
      · rw [htgt, hg]; exact hr
      · rw [htgt, hg]; exact hc
      · rw [htgt, hg]; exact hb
    exact ⟨hsv, by rw [extendOpt, if_pos hsv]⟩
  · intro hb hcpos pl hpl
    obtain ⟨ms, hv, hf, hrow, hcol⟩ :=
      dp_sound g (r + (c - 1)) r (c - 1) rfl hr (by omega) pl hpl
    have hg : pl.g = g := by rw [← hf]; exact followAll_g g ms
    have htgt : stepTarget pl Direction.east = (r, c) := by
      rw [stepTarget_east, hrow, hcol]
      congr 1
      omega
    have hsv : pl.is_step_valid Direction.east = true := by
      apply step_valid_of_target
      · rw [htgt, hg]; exact hr
      · rw [htgt, hg]; exact hc
      · rw [htgt, hg]; exact hb
    exact ⟨hsv, by rw [extendOpt, if_pos hsv]⟩

theorem claim_C9_witness :
    followAll gAll2 [Direction.south, Direction.east] ∈
      Option.toList (dpEntry gAll2 1 1) ∧
    (followAll gAll2 [Direction.south, Direction.east]).row = 1 ∧
    (followAll gAll2 [Direction.south, Direction.east]).col = 1 := by
  have he : dpEntry gAll2 1 1 = some (followAll gAll2 [Direction.south, Direction.east]) := by
    rw [dpEntry_not_building gAll2 1 1 (by decide), gAll2_fa11, gAll2_fl11, combineCands,
      if_neg (by decide)]
  have h := ((claim_C9 gAll2 1 1 (by decide) (by decide)).1 _ he)
  exact ⟨by rw [he]; exact List.mem_singleton.mpr rfl, h.1, h.2⟩

/-- Claim C10: a candidate with an invalid step keeps a false flag and never
replaces the incumbent, so the exhaustive solver's result equals the fold
that enumerates only the bit patterns whose full replay is valid. -/
theorem claim_C10 (g : Grid) :
    crane_unloading_exhaustive g =
      (List.range' 1 (g.rows + g.columns - 2)).foldl
        (fun best steps =>
          pickBits g steps
            ((List.range (2 ^ steps)).filter (fun bits => (replayBits g steps bits).2))
            best)
        (Path.start g) ∧
    (∀ steps bits best, (replayBits g steps bits).2 = false →
      pickBits g steps [bits] best = best) := by
  constructor
  · rw [crane_unloading_exhaustive_eq]
    have main : ∀ (L : List Nat) (best : Path), pickAll g L best =
        L.foldl
          (fun best steps =>
            pickBits g steps
              ((List.range (2 ^ steps)).filter (fun bits => (replayBits g steps bits).2))
              best)
          best := by
      intro L
      induction L with
      | nil => intro best; rfl
      | cons steps L ih =>
          intro best
          rw [pickAll_cons, List.foldl_cons, ← pickBits_filter]
          exact ih _
    exact main _ _
  · intro steps bits best h
    rw [pickBits_cons, h]
    rfl

theorem claim_C10_witness :
    (replayBits gB 2 1).2 = false ∧
    pickBits gB 2 [1] (Path.start gB) = Path.start gB :=
  ⟨by decide, (claim_C10 gB).2 2 1 (Path.start gB) (by decide)⟩

end Cranes
